import Mathlib

/-!
Shallow embedding of the steganography/Vigenère repository
(`src/project/steganography.py`, `src/project/vigenere.py`, `src/utils.py`).

Python strings are modelled as `List Nat` of Unicode code points, Python
`bytes` as `List Nat` of values `< 256`.  Fallible operations (`raise
ValueError`, `UnicodeDecodeError`, ...) are modelled with `Except Err` /
`Option`.
-/

set_option maxRecDepth 4000

/-- Error taxonomy of the core operations.  All of them surface as Python
`ValueError` / `UnicodeDecodeError`; the constructors record which check
fired. -/
inductive Err where
  /-- bits length not a multiple of 8 (`_bits_to_bytes`). -/
  | bitCount
  /-- a character that is not a binary digit reached `int(chunk, 2)`. -/
  | digit
  /-- extracted header does not start with `MAGIC` (`binary_to_text`). -/
  | magic
  /-- payload bytes are not valid UTF-8 (`bytes.decode`). -/
  | utf8
  /-- carrier has fewer spaces than there are bits to hide
      (`hide_text_in_container`). -/
  | capacity
  deriving DecidableEq, Repr

/-! ## Python `str.upper`

The repository calls `str.upper()` on keys and on cipher texts.  We model it
per code point, restricted to the scripts the fixed alphabet draws from
(ASCII, Latin-1, the Cyrillic block used by `LETTERS`); code points outside
those ranges are kept unchanged.  `ß` (U+00DF) uppercases to the two
characters `SS`, hence the result of one code point is a list. -/

/-- Model of Python `str.upper` on a single code point (identity outside the
ranges relevant to the repository's alphabet). -/
def pyUpperChar (c : Nat) : List Nat :=
  if 97 ≤ c ∧ c ≤ 122 then [c - 32]                     -- a-z → A-Z
  else if c = 223 then [83, 83]                          -- ß → SS
  else if c = 255 then [376]                             -- ÿ → Ÿ
  else if 224 ≤ c ∧ c ≤ 254 ∧ c ≠ 247 then [c - 32]      -- à-þ → À-Þ (÷ fixed)
  else if 1072 ≤ c ∧ c ≤ 1103 then [c - 32]              -- а-я → А-Я
  else if 1104 ≤ c ∧ c ≤ 1119 then [c - 80]              -- ѐ-џ → Ѐ-Џ (ё є і ї ў …)
  else if c = 1169 then [1168]                           -- ґ → Ґ
  else [c]

/-- Model of Python `str.upper` on a whole string. -/
def pyUpper (s : List Nat) : List Nat :=
  (s.map pyUpperChar).flatten

/-! ## UTF-8 codec

`str.encode("utf-8")` and `bytes.decode("utf-8")` as used by
`text_to_binary` / `binary_to_text`.  Python encoding rejects surrogate code
points; decoding is strict (rejects continuation errors, overlong forms,
surrogates and values beyond U+10FFFF). -/

/-- UTF-8 encoding of one code point; `none` on surrogates (Python raises
`UnicodeEncodeError`) and on values no Python `str` can hold. -/
def pyEncodeChar (c : Nat) : Option (List Nat) :=
  if 55296 ≤ c ∧ c < 57344 then none
  else if c < 128 then some [c]
  else if c < 2048 then some [192 + c / 64, 128 + c % 64]
  else if c < 65536 then some [224 + c / 4096, 128 + c / 64 % 64, 128 + c % 64]
  else if c < 1114112 then
    some [240 + c / 262144, 128 + c / 4096 % 64, 128 + c / 64 % 64, 128 + c % 64]
  else none

/-- UTF-8 encoding of a string (`str.encode("utf-8")`). -/
def pyEncode : List Nat → Option (List Nat)
  | [] => some []
  | c :: rest => do
    let b ← pyEncodeChar c
    let bs ← pyEncode rest
    pure (b ++ bs)

/-- Value of a UTF-8 continuation byte, `none` if the byte is not one. -/
def contVal (b : Nat) : Option Nat :=
  if 128 ≤ b ∧ b < 192 then some (b - 128) else none

/-- One step of strict UTF-8 decoding (`bytes.decode("utf-8")`): given the
first byte and the remaining bytes, return the decoded code point and the
bytes after it, or `none` on malformed input (continuation errors, overlong
forms, surrogates, values beyond U+10FFFF — Python raises
`UnicodeDecodeError`). -/
def decodeOne (b : Nat) (tl : List Nat) : Option (Nat × List Nat) :=
  if b < 128 then some (b, tl)
  else if b < 194 then none
  else if b < 224 then
    match tl with
    | b1 :: rest =>
      match contVal b1 with
      | some x1 => some ((b - 192) * 64 + x1, rest)
      | none => none
    | [] => none
  else if b < 240 then
    match tl with
    | b1 :: b2 :: rest =>
      match contVal b1, contVal b2 with
      | some x1, some x2 =>
        let c := (b - 224) * 4096 + x1 * 64 + x2
        if c < 2048 then none
        else if 55296 ≤ c ∧ c < 57344 then none
        else some (c, rest)
      | _, _ => none
    | _ => none
  else if b < 245 then
    match tl with
    | b1 :: b2 :: b3 :: rest =>
      match contVal b1, contVal b2, contVal b3 with
      | some x1, some x2, some x3 =>
        let c := (b - 240) * 262144 + x1 * 4096 + x2 * 64 + x3
        if c < 65536 then none
        else if 1114112 ≤ c then none
        else some (c, rest)
      | _, _, _ => none
    | _ => none
  else none

/-- Strict UTF-8 decoding, iterated with explicit fuel (each step consumes
at least one byte, so `fuel = length` is always enough; see `pyDecode`). -/
def pyDecodeFuel : Nat → List Nat → Option (List Nat)
  | _, [] => some []
  | 0, _ :: _ => none
  | fuel + 1, b :: tl =>
    match decodeOne b tl with
    | some (c, rest) => (pyDecodeFuel fuel rest).map (fun cs => c :: cs)
    | none => none

/-- Strict UTF-8 decoding of a byte string (`bytes.decode("utf-8")`). -/
def pyDecode (bs : List Nat) : Option (List Nat) :=
  pyDecodeFuel bs.length bs

/-! ## `src/project/steganography.py` -/

/-- Code point of the marker for bit `0` (`ZWS_0 = "​"`). -/
def ZWS_0 : Nat := 8203

/-- Code point of the marker for bit `1` (`ZWNJ_1 = "‌"`). -/
def ZWNJ_1 : Nat := 8204

/-- Magic bytes `MAGIC = b"ZWST"`. -/
def MAGIC : List Nat := [90, 87, 83, 84]

/-- Number of header bits (`HEADER_BITS = 64`). -/
def HEADER_BITS : Nat := 64

/-- The eight characters `'0'`/`'1'` of `f"{b:08b}"`, most significant bit
first (all call sites pass byte values `b < 256`). -/
def byteToBits (b : Nat) : List Nat :=
  [48 + b / 128 % 2, 48 + b / 64 % 2, 48 + b / 32 % 2, 48 + b / 16 % 2,
   48 + b / 8 % 2, 48 + b / 4 % 2, 48 + b / 2 % 2, 48 + b % 2]

/-- Python `_bytes_to_bits`: concatenate `f"{b:08b}"` over all bytes. -/
def bytesToBits (bs : List Nat) : List Nat :=
  (bs.map byteToBits).flatten

/-- Value of one character under `int(chunk, 2)`: `'0'` is 0, `'1'` is 1,
anything else raises. -/
def bitVal (c : Nat) : Option Nat :=
  if c = 48 then some 0 else if c = 49 then some 1 else none

/-- Loop body of `_bits_to_bytes`: parse consecutive chunks of 8 binary
digit characters (`int(bits[i:i+8], 2)`). -/
def bitsToBytesAux : List Nat → Option (List Nat)
  | [] => some []
  | c0 :: c1 :: c2 :: c3 :: c4 :: c5 :: c6 :: c7 :: rest => do
    let x0 ← bitVal c0
    let x1 ← bitVal c1
    let x2 ← bitVal c2
    let x3 ← bitVal c3
    let x4 ← bitVal c4
    let x5 ← bitVal c5
    let x6 ← bitVal c6
    let x7 ← bitVal c7
    let bs ← bitsToBytesAux rest
    pure ((x0 * 128 + x1 * 64 + x2 * 32 + x3 * 16 + x4 * 8 + x5 * 4 + x6 * 2 + x7) :: bs)
  | _ => none

/-- Python `_bits_to_bytes`: raises when the length is not a multiple of 8,
otherwise converts every 8-character chunk with `int(chunk, 2)`. -/
def bits_to_bytes (bits : List Nat) : Except Err (List Nat) :=
  if bits.length % 8 ≠ 0 then .error .bitCount
  else
    match bitsToBytesAux bits with
    | some bs => .ok bs
    | none => .error .digit

/-- Python `len(payload).to_bytes(4, "big")` (callers guard `n < 2 ^ 32`). -/
def toBytesBE4 (n : Nat) : List Nat :=
  [n / 16777216 % 256, n / 65536 % 256, n / 256 % 256, n % 256]

/-- Python `int.from_bytes(bs, "big")`. -/
def fromBytesBE (bs : List Nat) : Nat :=
  bs.foldl (fun a b => a * 256 + b) 0

/-- Python `text_to_binary`: UTF-8 encode, prepend `MAGIC` and the 4-byte
big-endian payload length, turn every byte into 8 bits.  `none` models the
`UnicodeEncodeError` on surrogates and the `OverflowError` of
`to_bytes(4, "big")` on payloads of `2 ^ 32` bytes or more. -/
def text_to_binary (text : List Nat) : Option (List Nat) := do
  let payload ← pyEncode text
  if payload.length < 4294967296 then
    pure (bytesToBits (MAGIC ++ toBytesBE4 payload.length ++ payload))
  else none

/-- Python `binary_to_text`: parse the first 64 bits as 8 header bytes,
check `MAGIC`, read the big-endian payload length, take that many payload
bits and UTF-8-decode them. -/
def binary_to_text (binary : List Nat) : Except Err (List Nat) :=
  match bits_to_bytes (binary.take HEADER_BITS) with
  | .error e => .error e
  | .ok header =>
    if header.take 4 ≠ MAGIC then .error .magic
    else
      let length := fromBytesBE (header.drop 4)
      match bits_to_bytes ((binary.drop HEADER_BITS).take (length * 8)) with
      | .error e => .error e
      | .ok payload =>
        match pyDecode payload with
        | some t => .ok t
        | none => .error .utf8

/-- Python dataclass `CapacityInfo`. -/
structure CapacityInfo where
  spaces : Nat
  bits_capacity : Nat
  deriving DecidableEq, Repr

/-- Python `get_capacity`: count the spaces; one space carries one bit. -/
def get_capacity (container : List Nat) : CapacityInfo :=
  let spaces := container.count 32
  ⟨spaces, spaces⟩

/-- Loop of `hide_text_in_container`: walk the container; after each space,
while `i < len(secret)`, insert the marker for `secret[i]` and advance
`i`. -/
def hideAux (secret : List Nat) : List Nat → Nat → List Nat
  | [], _ => []
  | ch :: rest, i =>
    if ch = 32 ∧ i < secret.length then
      32 :: (if secret.getD i 0 = 48 then ZWS_0 else ZWNJ_1) :: hideAux secret rest (i + 1)
    else
      ch :: hideAux secret rest i

/-- Python `hide_text_in_container`: capacity check, then the insertion
loop. -/
def hide_text_in_container (secret container : List Nat) : Except Err (List Nat) :=
  if secret.length > (get_capacity container).bits_capacity then .error .capacity
  else .ok (hideAux secret container 0)

/-- Loop of `extract_text_from_container`, with explicit fuel (the scan
advances by at least one character per iteration, so `fuel = length` is
always enough): while `i < len(container) - 1`, a space followed by `ZWS_0`
yields `'0'`, a space followed by `ZWNJ_1` yields `'1'` (advancing past
both); otherwise advance one character. -/
def extractFuel : Nat → List Nat → List Nat
  | fuel + 1, c0 :: c1 :: rest =>
    if c0 = 32 ∧ c1 = ZWS_0 then 48 :: extractFuel fuel rest
    else if c0 = 32 ∧ c1 = ZWNJ_1 then 49 :: extractFuel fuel rest
    else extractFuel fuel (c1 :: rest)
  | _, _ => []

/-- Python `extract_text_from_container`. -/
def extract_text_from_container (container : List Nat) : List Nat :=
  extractFuel container.length container

/-! ## `src/project/vigenere.py` and `src/utils.py` -/

/-- The fixed 71-character alphabet `LETTERS` (byte-identical in
`vigenere.py` and `utils.py`): `A`-`Z`, the 33 Cyrillic capitals in the
order `АБВГДЕЁЖЗИЙКЛМНОПРСТУФХЦЧШЩЬЪЫЭЮЯ`, then `ҐЄІЎЇÜÖÄẞÅÆØ`. -/
def LETTERS : List Nat :=
  [65, 66, 67, 68, 69, 70, 71, 72, 73, 74, 75, 76, 77, 78, 79, 80, 81, 82,
   83, 84, 85, 86, 87, 88, 89, 90,
   1040, 1041, 1042, 1043, 1044, 1045, 1025, 1046, 1047, 1048, 1049, 1050,
   1051, 1052, 1053, 1054, 1055, 1056, 1057, 1058, 1059, 1060, 1061, 1062,
   1063, 1064, 1065, 1068, 1066, 1067, 1069, 1070, 1071,
   1168, 1028, 1030, 1038, 1031, 220, 214, 196, 7838, 197, 198, 216]

/-- First index of `c` in a list, counting from `k` (helper for the
`index = {ch: i for i, ch in enumerate(LETTERS)}` dictionary; `LETTERS` has
no duplicates, so first index and dictionary index agree). -/
def idxOfAux (c : Nat) : List Nat → Nat → Option Nat
  | [], _ => none
  | x :: xs, k => if x = c then some k else idxOfAux c xs (k + 1)

/-- The dictionary lookup `index[ch]` / the test `ch in index`. -/
def letterIdx (c : Nat) : Option Nat :=
  idxOfAux c LETTERS 0

/-- Python `_prepare_key`: reject empty keys, uppercase, keep only alphabet
characters, reject the key when nothing is left.  Returns `key_filtered`
(the `index` dictionary and `n = len(LETTERS)` are fixed). -/
def prepare_key (key : List Nat) : Option (List Nat) :=
  if key = [] then none
  else
    let key_filtered := (pyUpper key).filter (fun ch => (letterIdx ch).isSome)
    if key_filtered = [] then none else some key_filtered

/-- Loop of `vigenere_encrypt` over the uppercased text: alphabet characters
are shifted by the current key character's index and advance `key_i`,
anything else passes through unchanged. -/
def encryptAux (kf : List Nat) : List Nat → Nat → List Nat
  | [], _ => []
  | ch :: rest, key_i =>
    match letterIdx ch with
    | some ci =>
      let shift := (letterIdx (kf.getD (key_i % kf.length) 0)).getD 0
      LETTERS.getD ((ci + shift) % LETTERS.length) 0 :: encryptAux kf rest (key_i + 1)
    | none => ch :: encryptAux kf rest key_i

/-- Loop of `vigenere_decrypt`; `(index[ch] - shift) % n` is Python's
non-negative integer modulus, i.e. `Int.emod`. -/
def decryptAux (kf : List Nat) : List Nat → Nat → List Nat
  | [], _ => []
  | ch :: rest, key_i =>
    match letterIdx ch with
    | some ci =>
      let shift := (letterIdx (kf.getD (key_i % kf.length) 0)).getD 0
      LETTERS.getD (((ci : Int) - shift) % (LETTERS.length : Int)).toNat 0
        :: decryptAux kf rest (key_i + 1)
    | none => ch :: decryptAux kf rest key_i

/-- Python `vigenere_encrypt` (`none` models the `ValueError` of
`_prepare_key`). -/
def vigenere_encrypt (text key : List Nat) : Option (List Nat) :=
  (prepare_key key).map (fun kf => encryptAux kf (pyUpper text) 0)

/-- Python `vigenere_decrypt` (`none` models the `ValueError` of
`_prepare_key`). -/
def vigenere_decrypt (text key : List Nat) : Option (List Nat) :=
  (prepare_key key).map (fun kf => decryptAux kf (pyUpper text) 0)

/-- Python `utils.validate_key`: non-empty and, after uppercasing, every
character is in `LETTERS` (`utils.LETTERS` is byte-identical to
`vigenere.LETTERS`). -/
def validate_key (key : List Nat) : Bool :=
  if key = [] then false
  else (pyUpper key).all (fun ch => decide (ch ∈ LETTERS))

/-! ## Specification-side embedding descriptions

`specEmbed` follows the words of the specification / claim C4 ("for each
`i < len(bits)`, one marker character inserted immediately after the `i`-th
space: ZWS for bit 0, ZWNJ for bit 1, further spaces receive no marker"),
to be compared with the indexed loop `hideAux` of the source.  `codeEmbed`
is the same consuming-style description but with the source's actual marker
choice (`ZWS_0` exactly for the character `'0'`, `ZWNJ_1` for anything
else), used by claim C10. -/

/-- Marker for a bit character as the specification words it: `ZWS_0` for
bit `'0'`, `ZWNJ_1` for bit `'1'` (unspecified junk otherwise). -/
def specMarker (b : Nat) : Nat :=
  if b = 48 then ZWS_0 else if b = 49 then ZWNJ_1 else 0

/-- Marker the code actually inserts: `ZWS_0` exactly when the character is
`'0'`, `ZWNJ_1` for every other character. -/
def codeMarker (b : Nat) : Nat :=
  if b = 48 then ZWS_0 else ZWNJ_1

/-- Insertion described by the specification: walk the carrier; each space
consumes the next pending bit and is followed by that bit's marker; once
the bits are exhausted, spaces pass through bare. -/
def specEmbed (bits carrier : List Nat) : List Nat :=
  match carrier with
  | [] => []
  | c :: rest =>
    if c = 32 then
      match bits with
      | [] => c :: specEmbed [] rest
      | b :: bs => c :: specMarker b :: specEmbed bs rest
    else c :: specEmbed bits rest

/-- Same walk with the source's marker choice (claim C10: characters other
than `'0'` embed as bit 1). -/
def codeEmbed (secret carrier : List Nat) : List Nat :=
  match carrier with
  | [] => []
  | c :: rest =>
    if c = 32 then
      match secret with
      | [] => c :: codeEmbed [] rest
      | b :: bs => c :: codeMarker b :: codeEmbed bs rest
    else c :: codeEmbed secret rest

/-! ## Bits/bytes lemmas -/

/-- Evaluation of `bitVal` on the two binary digit characters. -/
lemma bitVal_bit (x : Nat) (h : x < 2) : bitVal (48 + x) = some x := by
  interval_cases x <;> rfl

/-- Parsing one byte's 8 bit characters recovers the byte. -/
lemma bitsToBytesAux_byteToBits (b : Nat) (hb : b < 256) (rest : List Nat) :
    bitsToBytesAux (byteToBits b ++ rest) =
      (bitsToBytesAux rest).map (fun bs => b :: bs) := by
  have h0 : b / 128 % 2 < 2 := Nat.mod_lt _ (by norm_num)
  have h1 : b / 64 % 2 < 2 := Nat.mod_lt _ (by norm_num)
  have h2 : b / 32 % 2 < 2 := Nat.mod_lt _ (by norm_num)
  have h3 : b / 16 % 2 < 2 := Nat.mod_lt _ (by norm_num)
  have h4 : b / 8 % 2 < 2 := Nat.mod_lt _ (by norm_num)
  have h5 : b / 4 % 2 < 2 := Nat.mod_lt _ (by norm_num)
  have h6 : b / 2 % 2 < 2 := Nat.mod_lt _ (by norm_num)
  have h7 : b % 2 < 2 := Nat.mod_lt _ (by norm_num)
  have hval : b / 128 % 2 * 128 + b / 64 % 2 * 64 + b / 32 % 2 * 32 +
      b / 16 % 2 * 16 + b / 8 % 2 * 8 + b / 4 % 2 * 4 + b / 2 % 2 * 2 + b % 2 = b := by
    omega
  simp only [byteToBits, List.cons_append, List.nil_append, bitsToBytesAux,
    bitVal_bit _ h0, bitVal_bit _ h1, bitVal_bit _ h2, bitVal_bit _ h3,
    bitVal_bit _ h4, bitVal_bit _ h5, bitVal_bit _ h6, bitVal_bit _ h7,
    Option.bind_eq_bind, Option.some_bind, hval]
  show (bitsToBytesAux rest).bind (fun bs => some (b :: bs)) =
    (bitsToBytesAux rest).map (fun bs => b :: bs)
  cases bitsToBytesAux rest <;> rfl

/-- Unfolding of `bytesToBits` on a cons. -/
lemma bytesToBits_cons (b : Nat) (bs : List Nat) :
    bytesToBits (b :: bs) = byteToBits b ++ bytesToBits bs := by
  simp [bytesToBits]

/-- The bit expansion distributes over append. -/
lemma bytesToBits_append (xs ys : List Nat) :
    bytesToBits (xs ++ ys) = bytesToBits xs ++ bytesToBits ys := by
  simp [bytesToBits]

/-- Every byte yields 8 bit characters. -/
lemma bytesToBits_length (bs : List Nat) : (bytesToBits bs).length = 8 * bs.length := by
  induction bs with
  | nil => rfl
  | cons b rest ih => simp [bytesToBits_cons, ih, byteToBits]; omega

/-- Every character produced by `_bytes_to_bits` is a binary digit. -/
lemma bytesToBits_binary (bs : List Nat) : ∀ c ∈ bytesToBits bs, c = 48 ∨ c = 49 := by
  induction bs with
  | nil => intro c hc; cases hc
  | cons b rest ih =>
    intro c hc
    rw [bytesToBits_cons] at hc
    rcases List.mem_append.mp hc with h | h
    · have h0 : b / 128 % 2 < 2 := Nat.mod_lt _ (by norm_num)
      have h1 : b / 64 % 2 < 2 := Nat.mod_lt _ (by norm_num)
      have h2 : b / 32 % 2 < 2 := Nat.mod_lt _ (by norm_num)
      have h3 : b / 16 % 2 < 2 := Nat.mod_lt _ (by norm_num)
      have h4 : b / 8 % 2 < 2 := Nat.mod_lt _ (by norm_num)
      have h5 : b / 4 % 2 < 2 := Nat.mod_lt _ (by norm_num)
      have h6 : b / 2 % 2 < 2 := Nat.mod_lt _ (by norm_num)
      have h7 : b % 2 < 2 := Nat.mod_lt _ (by norm_num)
      simp only [byteToBits, List.mem_cons, List.not_mem_nil, or_false] at h
      rcases h with h | h | h | h | h | h | h | h <;> omega
    · exact ih c h

/-- Parsing the bit expansion of a byte string recovers the bytes. -/
lemma bitsToBytesAux_bytesToBits (bs : List Nat) (hb : ∀ b ∈ bs, b < 256) :
    bitsToBytesAux (bytesToBits bs) = some bs := by
  induction bs with
  | nil => rfl
  | cons b rest ih =>
    rw [bytesToBits_cons, bitsToBytesAux_byteToBits b (hb b (by simp))]
    rw [ih (fun x hx => hb x (by simp [hx]))]
    rfl

/-- Round trip of `_bytes_to_bits` and `_bits_to_bytes`. -/
lemma bits_to_bytes_bytesToBits (bs : List Nat) (hb : ∀ b ∈ bs, b < 256) :
    bits_to_bytes (bytesToBits bs) = .ok bs := by
  unfold bits_to_bytes
  rw [bytesToBits_length, if_neg (by omega), bitsToBytesAux_bytesToBits bs hb]

/-! ## UTF-8 lemmas -/

/-- Bytes produced by the UTF-8 encoder are byte values. -/
lemma pyEncodeChar_lt (c : Nat) (bs : List Nat) (h : pyEncodeChar c = some bs) :
    ∀ b ∈ bs, b < 256 := by
  unfold pyEncodeChar at h
  split_ifs at h <;> cases h <;> intro b hb <;>
    simp only [List.mem_cons, List.not_mem_nil, or_false] at hb
  · omega
  · rcases hb with rfl | rfl <;> omega
  · rcases hb with rfl | rfl | rfl <;> omega
  · rcases hb with rfl | rfl | rfl | rfl <;> omega

/-- Bytes produced by encoding a whole string are byte values. -/
lemma pyEncode_lt (t p : List Nat) (h : pyEncode t = some p) : ∀ b ∈ p, b < 256 := by
  induction t generalizing p with
  | nil => cases h; intro b hb; cases hb
  | cons c rest ih =>
    unfold pyEncode at h
    cases hc : pyEncodeChar c with
    | none => rw [hc] at h; cases h
    | some b1 =>
      cases hr : pyEncode rest with
      | none => rw [hc, hr] at h; cases h
      | some b2 =>
        rw [hc, hr] at h
        cases h
        intro b hb
        rcases List.mem_append.mp hb with h | h
        · exact pyEncodeChar_lt c b1 hc b h
        · exact ih b2 hr b h

/-- Evaluation of `contVal` on a continuation byte. -/
lemma contVal_eq (x : Nat) (h : x < 64) : contVal (128 + x) = some x := by
  unfold contVal
  rw [if_pos (by omega)]
  congr 1
  omega

/-- A successful decode step consumes at least the first byte. -/
lemma decodeOne_len (b : Nat) (tl : List Nat) (c : Nat) (rest : List Nat)
    (h : decodeOne b tl = some (c, rest)) : rest.length ≤ tl.length := by
  unfold decodeOne at h
  repeat' split at h
  all_goals (try cases h)
  all_goals simp_all
  all_goals omega

/-- Fuel irrelevance for the decoder, as long as there is enough of it. -/
lemma pyDecodeFuel_eq (f : Nat) : ∀ g bs, bs.length ≤ f → bs.length ≤ g →
    pyDecodeFuel f bs = pyDecodeFuel g bs := by
  induction f with
  | zero =>
    intro g bs h1 _
    have : bs = [] := List.eq_nil_of_length_eq_zero (by omega)
    subst this
    cases g <;> rfl
  | succ f ih =>
    intro g bs h1 h2
    cases bs with
    | nil => cases g <;> rfl
    | cons b tl =>
      cases g with
      | zero => simp at h2
      | succ g =>
        rw [pyDecodeFuel, pyDecodeFuel]
        cases hd : decodeOne b tl with
        | none => rfl
        | some pr =>
          obtain ⟨c, rest⟩ := pr
          have hlen := decodeOne_len b tl c rest hd
          simp only [List.length_cons] at h1 h2
          dsimp only
          rw [ih g rest (by omega) (by omega)]

/-- Unfolding of `pyDecode` on a successful decode step. -/
lemma pyDecode_cons_some (b : Nat) (tl : List Nat) (c : Nat) (rest : List Nat)
    (h : decodeOne b tl = some (c, rest)) :
    pyDecode (b :: tl) = (pyDecode rest).map (fun cs => c :: cs) := by
  have hlen := decodeOne_len b tl c rest h
  unfold pyDecode
  simp only [List.length_cons]
  rw [pyDecodeFuel, h]
  dsimp only
  rw [pyDecodeFuel_eq tl.length rest.length rest hlen (le_refl _)]

/-- Decoding the encoding of one code point peels it off the byte string. -/
lemma pyDecode_encodeChar (c : Nat) (bs : List Nat) (h : pyEncodeChar c = some bs)
    (rest : List Nat) :
    pyDecode (bs ++ rest) = (pyDecode rest).map (fun cs => c :: cs) := by
  unfold pyEncodeChar at h
  split_ifs at h with hs h1 h2 h3 h4 <;> cases h
  · -- ASCII
    show pyDecode (c :: rest) = (pyDecode rest).map (fun cs => c :: cs)
    refine pyDecode_cons_some c rest c rest ?_
    unfold decodeOne
    rw [if_pos h1]
  · -- two bytes
    show pyDecode ((192 + c / 64) :: (128 + c % 64) :: rest) =
      (pyDecode rest).map (fun cs => c :: cs)
    refine pyDecode_cons_some _ _ c rest ?_
    have e1 : contVal (128 + c % 64) = some (c % 64) := contVal_eq _ (by omega)
    have A1 : ¬(192 + c / 64 < 128) := by omega
    have A2 : ¬(192 + c / 64 < 194) := by omega
    have A3 : 192 + c / 64 < 224 := by omega
    have hv : (192 + c / 64 - 192) * 64 + c % 64 = c := by omega
    simp only [decodeOne, if_neg A1, if_neg A2, if_pos A3, e1, hv]
  · -- three bytes
    show pyDecode ((224 + c / 4096) :: (128 + c / 64 % 64) :: (128 + c % 64) :: rest) =
      (pyDecode rest).map (fun cs => c :: cs)
    refine pyDecode_cons_some _ _ c rest ?_
    have e1 : contVal (128 + c / 64 % 64) = some (c / 64 % 64) :=
      contVal_eq _ (Nat.mod_lt _ (by norm_num))
    have e2 : contVal (128 + c % 64) = some (c % 64) := contVal_eq _ (by omega)
    have A1 : ¬(224 + c / 4096 < 128) := by omega
    have A2 : ¬(224 + c / 4096 < 194) := by omega
    have A3 : ¬(224 + c / 4096 < 224) := by omega
    have A4 : 224 + c / 4096 < 240 := by omega
    have hv : (224 + c / 4096 - 224) * 4096 + c / 64 % 64 * 64 + c % 64 = c := by omega
    simp only [decodeOne, if_neg A1, if_neg A2, if_neg A3, if_pos A4, e1, e2, hv]
    rw [if_neg (by omega), if_neg (by tauto)]
  · -- four bytes
    show pyDecode ((240 + c / 262144) :: (128 + c / 4096 % 64) ::
      (128 + c / 64 % 64) :: (128 + c % 64) :: rest) =
      (pyDecode rest).map (fun cs => c :: cs)
    refine pyDecode_cons_some _ _ c rest ?_
    have e1 : contVal (128 + c / 4096 % 64) = some (c / 4096 % 64) :=
      contVal_eq _ (Nat.mod_lt _ (by norm_num))
    have e2 : contVal (128 + c / 64 % 64) = some (c / 64 % 64) :=
      contVal_eq _ (Nat.mod_lt _ (by norm_num))
    have e3 : contVal (128 + c % 64) = some (c % 64) := contVal_eq _ (by omega)
    have A1 : ¬(240 + c / 262144 < 128) := by omega
    have A2 : ¬(240 + c / 262144 < 194) := by omega
    have A3 : ¬(240 + c / 262144 < 224) := by omega
    have A4 : ¬(240 + c / 262144 < 240) := by omega
    have A5 : 240 + c / 262144 < 245 := by omega
    have hv : (240 + c / 262144 - 240) * 262144 + c / 4096 % 64 * 4096 +
        c / 64 % 64 * 64 + c % 64 = c := by omega
    simp only [decodeOne, if_neg A1, if_neg A2, if_neg A3, if_neg A4, if_pos A5,
      e1, e2, e3, hv]
    rw [if_neg (by omega), if_neg (by omega)]

/-- Decoding an encoded string prepended to decodable bytes decodes both. -/
lemma pyDecode_pyEncode_append (t : List Nat) :
    ∀ p, pyEncode t = some p → ∀ rest cs, pyDecode rest = some cs →
      pyDecode (p ++ rest) = some (t ++ cs) := by
  induction t with
  | nil =>
    intro p hp rest cs hrest
    cases hp
    simpa using hrest
  | cons c t' ih =>
    intro p hp rest cs hrest
    unfold pyEncode at hp
    cases hc : pyEncodeChar c with
    | none => rw [hc] at hp; cases hp
    | some b =>
      cases ht : pyEncode t' with
      | none => rw [hc, ht] at hp; cases hp
      | some bs =>
        rw [hc, ht] at hp
        cases hp
        rw [List.append_assoc, pyDecode_encodeChar c b hc,
          ih bs ht rest cs hrest]
        rfl

/-- UTF-8 round trip: decoding the encoding of a text yields the text. -/
lemma pyDecode_pyEncode (t p : List Nat) (h : pyEncode t = some p) :
    pyDecode p = some t := by
  have := pyDecode_pyEncode_append t p h [] [] rfl
  simpa using this

/-! ## Framing round trip (claim C1) -/

/-- Reading back the 4-byte big-endian encoding of a 32-bit value. -/
lemma fromBytesBE_toBytesBE4 (n : Nat) (h : n < 4294967296) :
    fromBytesBE (toBytesBE4 n) = n := by
  simp only [fromBytesBE, toBytesBE4, List.foldl]
  omega

/-- The header bytes are byte values. -/
lemma header_lt (n : Nat) : ∀ b ∈ MAGIC ++ toBytesBE4 n, b < 256 := by
  intro b hb
  rcases List.mem_append.mp hb with h | h
  · simp only [MAGIC, List.mem_cons, List.not_mem_nil, or_false] at h
    rcases h with rfl | rfl | rfl | rfl <;> omega
  · simp only [toBytesBE4, List.mem_cons, List.not_mem_nil, or_false] at h
    rcases h with rfl | rfl | rfl | rfl <;>
      exact Nat.mod_lt _ (by norm_num)

/-- Core of claim C1: de-framing a framed text returns the text. -/
lemma frame_unframe (t bits : List Nat) (h : text_to_binary t = some bits) :
    binary_to_text bits = .ok t := by
  unfold text_to_binary at h
  cases hp : pyEncode t with
  | none => rw [hp] at h; cases h
  | some payload =>
    rw [hp] at h
    simp only [Option.bind_eq_bind, Option.some_bind] at h
    by_cases hlen : payload.length < 4294967296
    · rw [if_pos hlen] at h
      cases h
      have hsplit : MAGIC ++ toBytesBE4 payload.length ++ payload =
          (MAGIC ++ toBytesBE4 payload.length) ++ payload := by
        simp [List.append_assoc]
      rw [hsplit, bytesToBits_append]
      have hhl : (bytesToBits (MAGIC ++ toBytesBE4 payload.length)).length = 64 := by
        rw [bytesToBits_length]
        simp [MAGIC, toBytesBE4]
      unfold binary_to_text
      rw [show HEADER_BITS = 64 from rfl, List.take_left' hhl, List.drop_left' hhl]
      rw [bits_to_bytes_bytesToBits _ (header_lt payload.length)]
      dsimp only
      have h4 : (MAGIC ++ toBytesBE4 payload.length).take 4 = MAGIC :=
        List.take_left' (by simp [MAGIC])
      have hd4 : (MAGIC ++ toBytesBE4 payload.length).drop 4 = toBytesBE4 payload.length :=
        List.drop_left' (by simp [MAGIC])
      rw [h4, if_neg (by simp), hd4, fromBytesBE_toBytesBE4 _ hlen]
      rw [List.take_of_length_le (by rw [bytesToBits_length]; omega)]
      rw [bits_to_bytes_bytesToBits _ (pyEncode_lt t payload hp)]
      dsimp only
      rw [pyDecode_pyEncode t payload hp]
    · rw [if_neg hlen] at h; cases h

/-- C1: for every Unicode string `t` (no surrogates, UTF-8 byte length
within the 32-bit length field — i.e. whenever `text_to_binary` succeeds),
`binary_to_text (text_to_binary t) = t`: framing a text and de-framing the
resulting bit string returns the original text. -/
theorem C1_frame_roundtrip (t bits : List Nat) (h : text_to_binary t = some bits) :
    binary_to_text bits = .ok t :=
  frame_unframe t bits h

/-- Witness for C1 at the one-character text `"A"`. -/
theorem C1_frame_roundtrip_witness :
    text_to_binary [65] = some (bytesToBits (MAGIC ++ toBytesBE4 1 ++ [65])) ∧
    binary_to_text (bytesToBits (MAGIC ++ toBytesBE4 1 ++ [65])) = .ok [65] :=
  ⟨rfl, C1_frame_roundtrip [65] _ rfl⟩

/-! ## Alphabet, key preparation and `str.upper` lemmas -/

/-- Specification of the index search. -/
lemma idxOfAux_some (c : Nat) : ∀ (l : List Nat) (k j : Nat),
    idxOfAux c l k = some j → k ≤ j ∧ j - k < l.length ∧ l.getD (j - k) 0 = c := by
  intro l
  induction l with
  | nil => intro k j h; cases h
  | cons x xs ih =>
    intro k j h
    unfold idxOfAux at h
    split_ifs at h with hx
    · cases h
      subst hx
      simp
    · obtain ⟨h1, h2, h3⟩ := ih (k + 1) j h
      refine ⟨by omega, by simp; omega, ?_⟩
      have : j - k = (j - (k + 1)) + 1 := by omega
      rw [this]
      simpa using h3

/-- A successful `index[ch]` lookup returns a position of `ch`. -/
lemma letterIdx_some (c j : Nat) (h : letterIdx c = some j) :
    j < LETTERS.length ∧ LETTERS.getD j 0 = c := by
  obtain ⟨_, h2, h3⟩ := idxOfAux_some c LETTERS 0 j h
  rw [Nat.sub_zero] at h2 h3
  exact ⟨h2, h3⟩

/-- The alphabet has no duplicates, so looking up the `j`-th letter finds
`j` (checked by evaluation over all 71 positions). -/
lemma letterIdx_getD_fin : ∀ j : Fin 71,
    letterIdx (LETTERS.getD (j : Nat) 0) = some (j : Nat) := by decide

/-- Version of `letterIdx_getD_fin` for a bounded natural index. -/
lemma letterIdx_getD (j : Nat) (h : j < 71) :
    letterIdx (LETTERS.getD j 0) = some j :=
  letterIdx_getD_fin ⟨j, h⟩

/-- Every alphabet letter is a fixed point of uppercasing (checked by
evaluation over all 71 positions). -/
lemma pyUpperChar_LETTERS_fin : ∀ j : Fin 71,
    pyUpperChar (LETTERS.getD (j : Nat) 0) = [LETTERS.getD (j : Nat) 0] := by decide

/-- Version of `pyUpperChar_LETTERS_fin` for a bounded natural index. -/
lemma pyUpperChar_LETTERS (j : Nat) (h : j < 71) :
    pyUpperChar (LETTERS.getD j 0) = [LETTERS.getD j 0] :=
  pyUpperChar_LETTERS_fin ⟨j, h⟩

/-- Unfolding of `pyUpperChar` outside all uppercasing ranges. -/
lemma pyUpperChar_eq_self (d : Nat)
    (h1 : ¬(97 ≤ d ∧ d ≤ 122)) (h2 : d ≠ 223) (h3 : d ≠ 255)
    (h4 : ¬(224 ≤ d ∧ d ≤ 254 ∧ d ≠ 247)) (h5 : ¬(1072 ≤ d ∧ d ≤ 1103))
    (h6 : ¬(1104 ≤ d ∧ d ≤ 1119)) (h7 : d ≠ 1169) : pyUpperChar d = [d] := by
  unfold pyUpperChar
  rw [if_neg h1, if_neg h2, if_neg h3, if_neg h4, if_neg h5, if_neg h6, if_neg h7]

/-- Characters produced by uppercasing are fixed points of uppercasing. -/
lemma pyUpperChar_fixed_of_mem (c d : Nat) (h : d ∈ pyUpperChar c) :
    pyUpperChar d = [d] := by
  unfold pyUpperChar at h
  split_ifs at h with h1 h2 h3 h4 h5 h6 h7 <;>
    simp only [List.mem_cons, List.not_mem_nil, or_false] at h
  · subst h; apply pyUpperChar_eq_self <;> omega
  · rcases h with rfl | rfl <;> (apply pyUpperChar_eq_self <;> omega)
  · subst h; apply pyUpperChar_eq_self <;> omega
  · subst h; apply pyUpperChar_eq_self <;> omega
  · subst h; apply pyUpperChar_eq_self <;> omega
  · subst h; apply pyUpperChar_eq_self <;> omega
  · subst h; apply pyUpperChar_eq_self <;> omega
  · subst h; exact pyUpperChar_eq_self _ h1 h2 h3 h4 h5 h6 h7

/-- Unfolding of `pyUpper` on a cons. -/
lemma pyUpper_cons (c : Nat) (s : List Nat) :
    pyUpper (c :: s) = pyUpperChar c ++ pyUpper s := by
  simp [pyUpper]

/-- Every character of an uppercased string is a fixed point of
uppercasing. -/
lemma pyUpper_mem_fixed (t : List Nat) : ∀ d ∈ pyUpper t, pyUpperChar d = [d] := by
  induction t with
  | nil => intro d hd; cases hd
  | cons c rest ih =>
    intro d hd
    rw [pyUpper_cons] at hd
    rcases List.mem_append.mp hd with h | h
    · exact pyUpperChar_fixed_of_mem c d h
    · exact ih d h

/-- Uppercasing is the identity on strings of uppercasing fixed points. -/
lemma pyUpper_fixed (u : List Nat) (h : ∀ c ∈ u, pyUpperChar c = [c]) :
    pyUpper u = u := by
  induction u with
  | nil => rfl
  | cons c rest ih =>
    rw [pyUpper_cons, h c (by simp), ih (fun x hx => h x (by simp [hx]))]
    rfl

/-- Successful key preparation yields a non-empty key of alphabet
characters. -/
lemma prepare_key_some (k kf : List Nat) (h : prepare_key k = some kf) :
    kf ≠ [] ∧ ∀ x ∈ kf, (letterIdx x).isSome := by
  unfold prepare_key at h
  by_cases h1 : k = []
  · rw [if_pos h1] at h; cases h
  · rw [if_neg h1] at h
    dsimp only at h
    by_cases h2 : (pyUpper k).filter (fun ch => (letterIdx ch).isSome) = []
    · rw [if_pos h2] at h; cases h
    · rw [if_neg h2] at h
      cases h
      exact ⟨h2, fun x hx => (List.mem_filter.mp hx).2⟩

/-! ## Cipher round trip (claims C2, C7, C8) -/

/-- Characters emitted by the encryption loop are fixed points of
uppercasing (alphabet letters stay alphabet letters, pass-through
characters were already fixed). -/
lemma encryptAux_fixed (kf : List Nat) :
    ∀ (u : List Nat) (ki : Nat), (∀ c ∈ u, pyUpperChar c = [c]) →
      ∀ d ∈ encryptAux kf u ki, pyUpperChar d = [d] := by
  intro u
  induction u with
  | nil => intro ki _ d hd; cases hd
  | cons c rest ih =>
    intro ki hu d hd
    unfold encryptAux at hd
    cases hc : letterIdx c with
    | some ci =>
      rw [hc] at hd
      simp only [List.mem_cons] at hd
      rcases hd with rfl | hd
      · exact pyUpperChar_LETTERS _ (Nat.mod_lt _ (by simp [LETTERS]))
      · exact ih (ki + 1) (fun x hx => hu x (by simp [hx])) d hd
    | none =>
      rw [hc] at hd
      simp only [List.mem_cons] at hd
      rcases hd with rfl | hd
      · exact hu d (by simp)
      · exact ih ki (fun x hx => hu x (by simp [hx])) d hd

/-- Decrypting the encryption loop's output with the same key and the same
keystream position restores the input. -/
lemma decryptAux_encryptAux (kf : List Nat) (hne : kf ≠ [])
    (hmem : ∀ x ∈ kf, (letterIdx x).isSome) :
    ∀ (u : List Nat) (ki : Nat), decryptAux kf (encryptAux kf u ki) ki = u := by
  intro u
  induction u with
  | nil => intro ki; rfl
  | cons c rest ih =>
    intro ki
    cases hc : letterIdx c with
    | none =>
      unfold encryptAux
      rw [hc]
      unfold decryptAux
      rw [hc, ih ki]
    | some ci =>
      have hkpos : 0 < kf.length := List.length_pos.mpr hne
      have hklt : ki % kf.length < kf.length := Nat.mod_lt _ hkpos
      have hkmem : kf.getD (ki % kf.length) 0 ∈ kf := by
        rw [List.getD_eq_getElem _ _ hklt]
        exact List.getElem_mem hklt
      obtain ⟨s, hs⟩ := Option.isSome_iff_exists.mp (hmem _ hkmem)
      have hslt : s < LETTERS.length := (letterIdx_some _ s hs).1
      have hci : ci < LETTERS.length := (letterIdx_some c ci hc).1
      have hcc : LETTERS.getD ci 0 = c := (letterIdx_some c ci hc).2
      have hlen : LETTERS.length = 71 := rfl
      unfold encryptAux
      rw [hc]
      unfold decryptAux
      have henc : letterIdx (LETTERS.getD ((ci + (letterIdx (kf.getD (ki % kf.length) 0)).getD 0) % LETTERS.length) 0) =
          some ((ci + (letterIdx (kf.getD (ki % kf.length) 0)).getD 0) % LETTERS.length) := by
        rw [hlen]
        exact letterIdx_getD _ (Nat.mod_lt _ (by omega))
      rw [henc, hs]
      simp only [Option.getD_some]
      rw [hs] at henc
      simp only [Option.getD_some] at henc
      have harith : ((((ci + s) % LETTERS.length : Nat) : Int) - (s : Int)) % ((LETTERS.length : Nat) : Int) = (ci : Int) := by
        rw [hlen] at hci hslt ⊢
        omega
      rw [harith]
      simp only [Int.toNat_ofNat, hcc]
      rw [ih (ki + 1)]

/-- C2: for every text `t` and key `k` for which `vigenere_encrypt` does not
raise, `vigenere_decrypt (vigenere_encrypt t k) k` is the uppercased form
of `t`. -/
theorem C2_cipher_roundtrip (t k e : List Nat) (h : vigenere_encrypt t k = some e) :
    vigenere_decrypt e k = some (pyUpper t) := by
  unfold vigenere_encrypt at h
  cases hk : prepare_key k with
  | none => rw [hk] at h; cases h
  | some kf =>
    rw [hk] at h
    cases h
    obtain ⟨hne, hmem⟩ := prepare_key_some k kf hk
    unfold vigenere_decrypt
    rw [hk]
    have hfix : ∀ d ∈ encryptAux kf (pyUpper t) 0, pyUpperChar d = [d] :=
      encryptAux_fixed kf (pyUpper t) 0 (pyUpper_mem_fixed t)
    show some (decryptAux kf (pyUpper (encryptAux kf (pyUpper t) 0)) 0) = some (pyUpper t)
    rw [pyUpper_fixed _ hfix, decryptAux_encryptAux kf hne hmem (pyUpper t) 0]

/-- Witness for C2 at the known vector `encrypt("A", "B") = "B"`,
`decrypt("B", "B") = "A"`. -/
theorem C2_cipher_roundtrip_witness :
    vigenere_encrypt [65] [66] = some [66] ∧ vigenere_decrypt [66] [66] = some [65] :=
  ⟨rfl, C2_cipher_roundtrip [65] [66] [66] rfl⟩

/-- C7: `vigenere_encrypt` and `vigenere_decrypt` fail (with the
`ValueError` of `_prepare_key`, i.e. return `none` in this embedding)
exactly when the key is empty or uppercasing and filtering against the
alphabet leaves no characters; otherwise they return normally. -/
theorem C7_invalid_key (t k : List Nat) :
    (vigenere_encrypt t k = none ↔
      k = [] ∨ (pyUpper k).filter (fun ch => (letterIdx ch).isSome) = []) ∧
    (vigenere_decrypt t k = none ↔
      k = [] ∨ (pyUpper k).filter (fun ch => (letterIdx ch).isSome) = []) := by
  have hp : prepare_key k = none ↔
      k = [] ∨ (pyUpper k).filter (fun ch => (letterIdx ch).isSome) = [] := by
    unfold prepare_key
    by_cases h1 : k = []
    · simp [h1]
    · rw [if_neg h1]
      dsimp only
      by_cases h2 : (pyUpper k).filter (fun ch => (letterIdx ch).isSome) = []
      · simp [h1, h2]
      · simp [h1, h2]
  constructor
  · unfold vigenere_encrypt
    rw [← hp]
    cases prepare_key k <;> simp
  · unfold vigenere_decrypt
    rw [← hp]
    cases prepare_key k <;> simp

/-- C8: `validate_key` is true exactly for non-empty keys all of whose
uppercased characters lie in the alphabet; it is strictly stricter than
`_prepare_key`, which accepts `"A!"` (keeping `"A"`) while `validate_key`
rejects it. -/
theorem C8_validate_key_strict (k : List Nat) :
    (validate_key k = true ↔ k ≠ [] ∧ ∀ c ∈ pyUpper k, c ∈ LETTERS) ∧
    validate_key [65, 33] = false ∧ prepare_key [65, 33] = some [65] := by
  refine ⟨?_, rfl, rfl⟩
  unfold validate_key
  by_cases h1 : k = []
  · simp [h1]
  · rw [if_neg h1]
    simp [List.all_eq_true, h1]

/-! ## Embedder and extractor lemmas (claims C3, C4, C9, C10) -/

/-- The indexed insertion loop of the source equals the consuming
description, starting from the bits not yet consumed. -/
lemma hideAux_eq_codeEmbed : ∀ (carrier secret : List Nat) (i : Nat),
    hideAux secret carrier i = codeEmbed (secret.drop i) carrier := by
  intro carrier
  induction carrier with
  | nil => intro secret i; rfl
  | cons ch rest ih =>
    intro secret i
    unfold hideAux codeEmbed
    by_cases hch : ch = 32
    · subst hch
      by_cases hi : i < secret.length
      · rw [if_pos ⟨rfl, hi⟩, if_pos rfl, List.drop_eq_getElem_cons hi]
        simp only [codeMarker, List.getD_eq_getElem _ _ hi, ih]
      · rw [if_neg (by tauto), if_pos rfl, List.drop_of_length_le (by omega)]
        simp only [ih]
        rw [List.drop_of_length_le (by omega)]
    · rw [if_neg (by tauto), if_neg hch]
      simp only [ih]

/-- With the source's permissive marker rule restricted to binary digit
characters, the code's insertion agrees with the specification's. -/
lemma specEmbed_eq_codeEmbed : ∀ (carrier bits : List Nat),
    (∀ c ∈ bits, c = 48 ∨ c = 49) → specEmbed bits carrier = codeEmbed bits carrier := by
  intro carrier
  induction carrier with
  | nil => intro bits _; rfl
  | cons ch rest ih =>
    intro bits hb
    unfold specEmbed codeEmbed
    by_cases hch : ch = 32
    · rw [if_pos hch, if_pos hch]
      cases bits with
      | nil => rw [ih [] (by intro c hc; cases hc)]
      | cons b bs =>
        have hmark : specMarker b = codeMarker b := by
          rcases hb b (by simp) with rfl | rfl <;> rfl
        dsimp only
        rw [hmark, ih bs (fun c hc => hb c (by simp [hc]))]
    · rw [if_neg hch, if_neg hch, ih bits hb]

/-- Embedding into an empty bit string inserts nothing. -/
lemma codeEmbed_nil : ∀ carrier : List Nat, codeEmbed [] carrier = carrier := by
  intro carrier
  induction carrier with
  | nil => rfl
  | cons ch rest ih =>
    unfold codeEmbed
    by_cases hch : ch = 32
    · rw [if_pos hch, ih]
    · rw [if_neg hch, ih]

/-- Fuel irrelevance for the extraction scan, as long as there is enough of
it. -/
lemma extractFuel_eq (f : Nat) : ∀ g l, l.length ≤ f → l.length ≤ g →
    extractFuel f l = extractFuel g l := by
  induction f with
  | zero =>
    intro g l h1 _
    have : l = [] := List.eq_nil_of_length_eq_zero (by omega)
    subst this
    cases g <;> rfl
  | succ f ih =>
    intro g l h1 h2
    match l with
    | [] => cases g <;> rfl
    | [c] =>
      cases g with
      | zero => simp at h2
      | succ g => rfl
    | c0 :: c1 :: rest =>
      cases g with
      | zero => simp at h2
      | succ g =>
        simp only [List.length_cons] at h1 h2
        rw [extractFuel, extractFuel]
        split_ifs
        · rw [ih g rest (by omega) (by omega)]
        · rw [ih g rest (by omega) (by omega)]
        · rw [ih g (c1 :: rest) (by simp; omega) (by simp; omega)]

/-- The extractor at any sufficient fuel. -/
lemma extract_eq_fuel (l : List Nat) (f : Nat) (hf : l.length ≤ f) :
    extract_text_from_container l = extractFuel f l :=
  extractFuel_eq l.length f l (le_refl _) hf

/-- Scan step on a space followed by a marker. -/
lemma extract_pair (b : Nat) (rest : List Nat) (hb : b = ZWS_0 ∨ b = ZWNJ_1) :
    extract_text_from_container (32 :: b :: rest) =
      (if b = ZWS_0 then 48 else 49) :: extract_text_from_container rest := by
  unfold extract_text_from_container
  simp only [List.length_cons]
  rw [extractFuel]
  rcases hb with rfl | rfl
  · rw [if_pos ⟨rfl, rfl⟩, if_pos rfl,
      extractFuel_eq (rest.length + 1) rest.length rest (by omega) (le_refl _)]
  · rw [if_neg (by simp [ZWS_0, ZWNJ_1]), if_pos ⟨rfl, rfl⟩,
      if_neg (by simp [ZWS_0, ZWNJ_1]),
      extractFuel_eq (rest.length + 1) rest.length rest (by omega) (le_refl _)]

/-- Scan step on a position that does not start a space-marker pair. -/
lemma extract_step (c0 c1 : Nat) (rest : List Nat)
    (h : ¬(c0 = 32 ∧ (c1 = ZWS_0 ∨ c1 = ZWNJ_1))) :
    extract_text_from_container (c0 :: c1 :: rest) =
      extract_text_from_container (c1 :: rest) := by
  unfold extract_text_from_container
  simp only [List.length_cons]
  rw [extractFuel]
  rw [if_neg (by tauto), if_neg (by tauto)]

/-- Characterization of an empty extraction: no space immediately followed
by a marker occurs anywhere in the input. -/
lemma extract_empty_iff (container : List Nat) :
    extract_text_from_container container = [] ↔
      ¬∃ pre b post, container = pre ++ 32 :: b :: post ∧ (b = ZWS_0 ∨ b = ZWNJ_1) := by
  have main : ∀ n l, List.length l ≤ n →
      (extract_text_from_container l = [] ↔
        ¬∃ pre b post, l = pre ++ 32 :: b :: post ∧ (b = ZWS_0 ∨ b = ZWNJ_1)) := by
    intro n
    induction n with
    | zero =>
      intro l hl
      have : l = [] := List.eq_nil_of_length_eq_zero (by omega)
      subst this
      constructor
      · rintro - ⟨pre, b, post, habs, -⟩
        have := congrArg List.length habs
        simp at this
        omega
      · intro _; rfl
    | succ n ih =>
      intro l hl
      match l with
      | [] =>
        constructor
        · rintro - ⟨pre, b, post, habs, -⟩
          have := congrArg List.length habs
          simp at this
          omega
        · intro _; rfl
      | [c] =>
        constructor
        · rintro - ⟨pre, b, post, habs, -⟩
          have := congrArg List.length habs
          simp at this
          omega
        · intro _; rfl
      | c0 :: c1 :: rest =>
        simp only [List.length_cons] at hl
        by_cases hpair : c0 = 32 ∧ (c1 = ZWS_0 ∨ c1 = ZWNJ_1)
        · obtain ⟨rfl, hb⟩ := hpair
          rw [extract_pair c1 rest hb]
          constructor
          · intro habs; cases habs
          · intro habs
            exact absurd ⟨[], c1, rest, rfl, hb⟩ habs
        · rw [extract_step c0 c1 rest hpair]
          rw [ih (c1 :: rest) (by simp; omega)]
          constructor
          · rintro hno ⟨pre, b, post, hdec, hb⟩
            match pre, hdec with
            | [], hdec =>
              simp only [List.nil_append, List.cons.injEq] at hdec
              exact hpair ⟨hdec.1, by rw [hdec.2.1]; exact hb⟩
            | p0 :: pre, hdec =>
              simp only [List.cons_append, List.cons.injEq] at hdec
              exact hno ⟨pre, b, post, hdec.2, hb⟩
          · rintro hno ⟨pre, b, post, hdec, hb⟩
            exact hno ⟨c0 :: pre, b, post, by rw [hdec]; rfl, hb⟩
  exact main container.length container (le_refl _)

/-- A string free of marker characters extracts to the empty bit string. -/
lemma extract_noMarkers (l : List Nat) (h : ∀ c ∈ l, c ≠ ZWS_0 ∧ c ≠ ZWNJ_1) :
    extract_text_from_container l = [] := by
  rw [extract_empty_iff]
  rintro ⟨pre, b, post, hdec, hb⟩
  have hbmem : b ∈ l := by
    rw [hdec]
    simp
  rcases hb with rfl | rfl
  · exact (h _ hbmem).1 rfl
  · exact (h _ hbmem).2 rfl

/-- Extracting from an embedded marker-free carrier returns the embedded
characters collapsed to bits: `'0'` stays `'0'`, anything else reads back
as `'1'`. -/
lemma extract_codeEmbed : ∀ (carrier secret : List Nat),
    (∀ c ∈ carrier, c ≠ ZWS_0 ∧ c ≠ ZWNJ_1) →
    secret.length ≤ carrier.count 32 →
    extract_text_from_container (codeEmbed secret carrier) =
      secret.map (fun b => if b = 48 then 48 else 49) := by
  intro carrier
  induction carrier with
  | nil =>
    intro secret _ hcap
    simp only [List.count_nil] at hcap
    have : secret = [] := List.eq_nil_of_length_eq_zero (by omega)
    subst this
    rfl
  | cons ch rest ih =>
    intro secret hmk hcap
    have hmk' : ∀ c ∈ rest, c ≠ ZWS_0 ∧ c ≠ ZWNJ_1 :=
      fun c hc => hmk c (by simp [hc])
    by_cases hch : ch = 32
    · subst hch
      have hcount : (32 :: rest).count 32 = rest.count 32 + 1 := by
        simp [List.count_cons]
      cases secret with
      | nil =>
        rw [show codeEmbed [] (32 :: rest) = 32 :: rest from codeEmbed_nil _]
        rw [extract_noMarkers _ hmk]
        rfl
      | cons b bs =>
        rw [show codeEmbed (b :: bs) (32 :: rest) =
          32 :: codeMarker b :: codeEmbed bs rest from by rw [codeEmbed]; simp]
        have hmrk : codeMarker b = ZWS_0 ∨ codeMarker b = ZWNJ_1 := by
          unfold codeMarker
          split_ifs <;> simp
        rw [extract_pair _ _ hmrk]
        rw [hcount] at hcap
        simp only [List.length_cons] at hcap
        rw [ih bs hmk' (by omega)]
        have : (if codeMarker b = ZWS_0 then 48 else 49) = if b = 48 then 48 else 49 := by
          unfold codeMarker
          split_ifs with h1 h2 h2 <;> first | rfl | simp [ZWS_0, ZWNJ_1] at *
        rw [this]
        rfl
    · have hcount : (ch :: rest).count 32 = rest.count 32 := by
        simp [List.count_cons, hch]
      have hstep : codeEmbed secret (ch :: rest) = ch :: codeEmbed secret rest := by
        conv_lhs => rw [codeEmbed.eq_def]
        dsimp only
        rw [if_neg hch]
      rw [hstep]
      rw [hcount] at hcap
      cases hemb : codeEmbed secret rest with
      | nil =>
        have hrest : rest = [] := by
          cases rest with
          | nil => rfl
          | cons r rs =>
            unfold codeEmbed at hemb
            split_ifs at hemb
            all_goals (revert hemb; cases secret <;> simp)
        subst hrest
        simp only [List.count_nil] at hcap
        have : secret = [] := List.eq_nil_of_length_eq_zero (by omega)
        subst this
        rfl
      | cons e es =>
        rw [extract_step ch e es (by tauto)]
        rw [← hemb, ih secret hmk' hcap]

/-- The bit capacity equals the space count. -/
lemma get_capacity_bits (carrier : List Nat) :
    (get_capacity carrier).bits_capacity = carrier.count 32 := rfl

/-- Collapsing binary digit characters to bits is the identity on them. -/
lemma map_bit_id (bits : List Nat) (hb : ∀ c ∈ bits, c = 48 ∨ c = 49) :
    bits.map (fun b => if b = 48 then 48 else 49) = bits := by
  induction bits with
  | nil => rfl
  | cons b bs ih =>
    simp only [List.map_cons]
    rw [ih (fun c hc => hb c (by simp [hc]))]
    rcases hb b (by simp) with rfl | rfl <;> rfl

/-- Bits produced by framing are binary digit characters. -/
lemma text_to_binary_binary (t bits : List Nat) (h : text_to_binary t = some bits) :
    ∀ c ∈ bits, c = 48 ∨ c = 49 := by
  unfold text_to_binary at h
  cases hp : pyEncode t with
  | none => rw [hp] at h; cases h
  | some payload =>
    rw [hp] at h
    simp only [Option.bind_eq_bind, Option.some_bind] at h
    split_ifs at h
    cases h
    exact bytesToBits_binary _

/-- C4: `hide_text_in_container` fails with the capacity error exactly when
the bit string is longer than the carrier's space count, embeds nothing on
failure (it returns the error alone), and on success returns the carrier
with one marker (ZWS for `'0'`, ZWNJ for `'1'`) inserted immediately after
each of the first `len bits` spaces, all carrier characters kept in order
and later spaces bare — the insertion described by `specEmbed`. -/
theorem C4_hide_contract (bits carrier : List Nat)
    (hb : ∀ c ∈ bits, c = 48 ∨ c = 49) :
    (hide_text_in_container bits carrier = .error .capacity ↔
      carrier.count 32 < bits.length) ∧
    (∀ out, hide_text_in_container bits carrier = .ok out →
      out = specEmbed bits carrier) := by
  unfold hide_text_in_container
  rw [get_capacity_bits]
  constructor
  · by_cases hc : bits.length > carrier.count 32
    · rw [if_pos hc]
      simp [hc]
    · rw [if_neg hc]
      constructor
      · intro h; cases h
      · intro h; omega
  · intro out hout
    by_cases hc : bits.length > carrier.count 32
    · rw [if_pos hc] at hout; cases hout
    · rw [if_neg hc] at hout
      cases hout
      rw [hideAux_eq_codeEmbed, List.drop_zero,
        specEmbed_eq_codeEmbed carrier bits hb]

/-- Witness for C4: hiding `"01"` in `" a "`. -/
theorem C4_hide_contract_witness :
    hide_text_in_container [48, 49] [32, 97, 32] = .ok [32, ZWS_0, 97, 32, ZWNJ_1] ∧
    [32, ZWS_0, 97, 32, ZWNJ_1] = specEmbed [48, 49] [32, 97, 32] :=
  ⟨rfl, (C4_hide_contract [48, 49] [32, 97, 32] (by decide)).2 _ rfl⟩

/-- C10: `hide_text_in_container` never validates the secret's characters —
it succeeds exactly when the secret fits the space count, whatever the
characters are, and after the `i`-th space inserts `ZWS_0` when
`secret[i] = '0'` and `ZWNJ_1` for any other character, so `'2'` and `'x'`
silently embed as bit 1 rather than being rejected. -/
theorem C10_no_secret_validation (secret carrier : List Nat) :
    ((∃ out, hide_text_in_container secret carrier = .ok out) ↔
      secret.length ≤ carrier.count 32) ∧
    (secret.length ≤ carrier.count 32 →
      hide_text_in_container secret carrier = .ok (codeEmbed secret carrier)) ∧
    hide_text_in_container [50] [32] = .ok [32, ZWNJ_1] ∧
    hide_text_in_container [120] [32] = .ok [32, ZWNJ_1] := by
  refine ⟨?_, ?_, rfl, rfl⟩
  · unfold hide_text_in_container
    rw [get_capacity_bits]
    by_cases hc : secret.length > carrier.count 32
    · rw [if_pos hc]
      constructor
      · rintro ⟨out, h⟩; cases h
      · intro h; omega
    · rw [if_neg hc]
      exact ⟨fun _ => by omega, fun _ => ⟨_, rfl⟩⟩
  · intro h
    unfold hide_text_in_container
    rw [get_capacity_bits, if_neg (by omega)]
    rw [hideAux_eq_codeEmbed, List.drop_zero]

/-- Witness for C10: the non-bit character `'2'` is embedded, not
rejected. -/
theorem C10_no_secret_validation_witness :
    hide_text_in_container [50] [32] = .ok (codeEmbed [50] [32]) :=
  (C10_no_secret_validation [50] [32]).2.1 (by decide)

/-- C9: `extract_text_from_container` is total (it is a plain function in
this embedding and raises nothing), and returns the empty bit string
exactly when the input has no occurrence of a space immediately followed by
one of the two marker characters. -/
theorem C9_extract_empty (container : List Nat) :
    extract_text_from_container container = [] ↔
      ¬∃ pre b post, container = pre ++ 32 :: b :: post ∧
        (b = ZWS_0 ∨ b = ZWNJ_1) :=
  extract_empty_iff container

/-- Counterexample to C3 as stated: for the empty text (64 framed bits) and
a carrier of 65 spaces followed by a stray `ZWS_0`, the carrier has enough
spaces, hiding succeeds, yet extraction returns 65 bits — the stray marker
after the 65th (unused) space is read back as an extra bit 0. -/
theorem C3_counterexample :
    text_to_binary [] = some (bytesToBits (MAGIC ++ toBytesBE4 0)) ∧
    (bytesToBits (MAGIC ++ toBytesBE4 0)).length ≤
      (List.replicate 65 32 ++ [ZWS_0]).count 32 ∧
    hide_text_in_container (bytesToBits (MAGIC ++ toBytesBE4 0))
        (List.replicate 65 32 ++ [ZWS_0]) =
      .ok (hideAux (bytesToBits (MAGIC ++ toBytesBE4 0))
        (List.replicate 65 32 ++ [ZWS_0]) 0) ∧
    extract_text_from_container (hideAux (bytesToBits (MAGIC ++ toBytesBE4 0))
        (List.replicate 65 32 ++ [ZWS_0]) 0) ≠
      bytesToBits (MAGIC ++ toBytesBE4 0) :=
  ⟨rfl, by decide, rfl, by decide⟩

/-- C3 as amended: for every framed text and every carrier that contains no
marker characters and has at least as many spaces as framed bits, hiding
succeeds, extraction returns exactly the framed bits, and de-framing them
yields the original text. -/
theorem C3_hide_extract_roundtrip (t bits carrier : List Nat)
    (ht : text_to_binary t = some bits)
    (hm : ∀ c ∈ carrier, c ≠ ZWS_0 ∧ c ≠ ZWNJ_1)
    (hcap : bits.length ≤ carrier.count 32) :
    hide_text_in_container bits carrier = .ok (codeEmbed bits carrier) ∧
    extract_text_from_container (codeEmbed bits carrier) = bits ∧
    binary_to_text bits = .ok t := by
  have hbin : ∀ c ∈ bits, c = 48 ∨ c = 49 := text_to_binary_binary t bits ht
  refine ⟨?_, ?_, frame_unframe t bits ht⟩
  · unfold hide_text_in_container
    rw [get_capacity_bits, if_neg (by omega)]
    rw [hideAux_eq_codeEmbed, List.drop_zero]
  · rw [extract_codeEmbed carrier bits hm hcap, map_bit_id bits hbin]

/-- Witness for the amended C3: the empty text hidden in 64 spaces. -/
theorem C3_hide_extract_roundtrip_witness :
    hide_text_in_container (bytesToBits (MAGIC ++ toBytesBE4 0))
        (List.replicate 64 32) =
      .ok (codeEmbed (bytesToBits (MAGIC ++ toBytesBE4 0)) (List.replicate 64 32)) ∧
    extract_text_from_container
        (codeEmbed (bytesToBits (MAGIC ++ toBytesBE4 0)) (List.replicate 64 32)) =
      bytesToBits (MAGIC ++ toBytesBE4 0) ∧
    binary_to_text (bytesToBits (MAGIC ++ toBytesBE4 0)) = .ok [] :=
  C3_hide_extract_roundtrip [] _ _ rfl (by decide) (by decide)

/-- C5 fails on the code: `binary_to_text` has no 64-bit minimum-length
check.  The 32-bit input consisting of exactly the bits of `MAGIC`
(`"ZWST"`) is shorter than 64 bits, yet `binary_to_text` returns the empty
text instead of raising: the 4 parsed header bytes pass the `MAGIC`
comparison, `int.from_bytes(b"", "big") = 0` supplies a zero payload
length, and decoding succeeds vacuously. -/
theorem C5_short_header_not_rejected :
    (bytesToBits MAGIC).length = 32 ∧
    binary_to_text (bytesToBits MAGIC) = .ok [] :=
  ⟨rfl, rfl⟩

/-- Counterexample to C6 as stated: framing `"AB"` declares payload length
2 (16 payload bits), but truncating the frame to 72 bits leaves only 8
payload bits — and `binary_to_text` silently returns the truncated text
`"A"` instead of failing, because the available slice is a whole number of
bytes of valid UTF-8. -/
theorem C6_counterexample :
    text_to_binary [65, 66] = some (bytesToBits (MAGIC ++ toBytesBE4 2 ++ [65, 66])) ∧
    bits_to_bytes (((bytesToBits (MAGIC ++ toBytesBE4 2 ++ [65, 66])).take 72).take 64) =
      .ok (MAGIC ++ toBytesBE4 2) ∧
    fromBytesBE ((MAGIC ++ toBytesBE4 2).drop 4) = 2 ∧
    (((bytesToBits (MAGIC ++ toBytesBE4 2 ++ [65, 66])).take 72).drop 64).length = 8 ∧
    binary_to_text ((bytesToBits (MAGIC ++ toBytesBE4 2 ++ [65, 66])).take 72) =
      .ok [65] :=
  ⟨rfl, rfl, rfl, rfl, rfl⟩

/-- C6 as amended: when fewer than `L * 8` bits follow a valid header
declaring payload length `L`, `binary_to_text` processes exactly the bits
that are present: it fails with the bit-count error when their number is
not a multiple of 8 (second conjunct), fails with the UTF-8 error when the
resulting bytes are malformed, and otherwise silently returns the
truncated text (first conjunct: the result is fully determined by the
short slice). -/
theorem C6_truncated_payload (binary header : List Nat)
    (hh : bits_to_bytes (binary.take 64) = .ok header)
    (hm : header.take 4 = MAGIC)
    (hshort : (binary.drop 64).length < fromBytesBE (header.drop 4) * 8) :
    (binary_to_text binary =
      match bits_to_bytes (binary.drop 64) with
      | .error e => .error e
      | .ok payload =>
        match pyDecode payload with
        | some u => .ok u
        | none => .error .utf8) ∧
    ((binary.drop 64).length % 8 ≠ 0 → binary_to_text binary = .error .bitCount) := by
  have hmain : binary_to_text binary =
      match bits_to_bytes (binary.drop 64) with
      | .error e => .error e
      | .ok payload =>
        match pyDecode payload with
        | some u => .ok u
        | none => .error .utf8 := by
    unfold binary_to_text
    rw [show HEADER_BITS = 64 from rfl, hh]
    dsimp only
    rw [hm, if_neg (by simp)]
    rw [List.take_of_length_le (by omega)]
  refine ⟨hmain, fun h8 => ?_⟩
  rw [hmain]
  unfold bits_to_bytes
  rw [if_pos h8]

/-- Witness for the amended C6 at the 72-bit truncation of the frame of
`"AB"`: the result is the silently truncated text `"A"`. -/
theorem C6_truncated_payload_witness :
    binary_to_text ((bytesToBits (MAGIC ++ toBytesBE4 2 ++ [65, 66])).take 72) =
      .ok [65] := by
  have h := C6_truncated_payload
    ((bytesToBits (MAGIC ++ toBytesBE4 2 ++ [65, 66])).take 72)
    (MAGIC ++ toBytesBE4 2) (by rfl) (by rfl) (by decide)
  exact h.1.trans (by rfl)
